import Mathlib

/-
Verification of the slideshow engine in src/slideshow.py (class
SlideshowEngine).  The definitions below are a shallow embedding of the
relevant methods: the staging cache inside process_image (lines 74-141),
the eviction pass _clean_cache (lines 143-163), the background preloader
loop preload_images (lines 175-194), the sequencer operations next_image
(lines 246-253) and refresh_images (lines 255-272), and the cover branch
of the fit-mode computation (lines 95-114).  Stateful Python code is
turned into explicit state passing; the filesystem is an explicit finite
map from paths to byte sizes; the nondeterminism of random.shuffle and of
thread interleavings is passed in as explicit parameters.
-/

set_option autoImplicit false

namespace RpiSlideshow

/-- Cache key built at slideshow.py line 78: the f-string of the source
path and its modification time.  The mtime is kept as the string Python
would interpolate. -/
def keyOf (path mtime : String) : String := path ++ "_" ++ mtime

/-- Helper for `pathHash`: fold over the characters. -/
def pathHashAux : Nat → List Char → Nat
  | h, [] => h
  | h, c :: cs => pathHashAux ((h * 31 + c.toNat) % 1000000007) cs

/-- Stand-in for Python `hash(str(image_path))` at line 121: a fixed
integer-valued function of the path string alone.  The development relies
only on it being a function of the path (the mtime does not enter). -/
def pathHash (path : String) : Nat :=
  pathHashAux 7 path.data

/-- Output artifact location built at line 121:
`/tmp/slideshow_processed_{hash(str(image_path))}.jpg`.  It depends only
on the source path, never on the mtime component of the cache key. -/
def tempPathOf (path : String) : String :=
  "/tmp/slideshow_processed_" ++ toString (pathHash path) ++ ".jpg"

/-! ## Filesystem model

A finite map from file paths to byte sizes, as an association list with
unique keys.  `os.path.exists` is `fsLookup ≠ none`, `os.path.getsize`
reads the stored size, `os.remove` is `fsErase`, and `img.save` is
`fsInsert` (overwriting any previous file at that path). -/

/-- Filesystem state: files with their byte sizes. -/
abbrev FS := List (String × Nat)

def fsLookup (p : String) : FS → Option Nat
  | [] => none
  | e :: rest => if e.1 = p then some e.2 else fsLookup p rest

def fsErase (p : String) : FS → FS
  | [] => []
  | e :: rest => if e.1 = p then fsErase p rest else e :: fsErase p rest

/-- Writing a file (`img.save` at line 122) replaces previous content. -/
def fsInsert (p : String) (sz : Nat) (fs : FS) : FS := (p, sz) :: fsErase p fs

/-- Total number of bytes held on disk. -/
def fsTotal (fs : FS) : Int := (fs.map (fun e => (e.2 : Int))).sum

/-- Well-formed filesystem: one entry per path. -/
abbrev fsWF (fs : FS) : Prop := (fs.map Prod.fst).Nodup

/-! ## The staging cache -/

/-- The cache table `self.cache` (a Python dict, iterated in insertion
order, so new entries are appended at the tail) together with the byte
counter `self.cache_size_used`. -/
structure CacheState where
  cache : List (String × String)
  used : Int
deriving DecidableEq

/-- Lookup in the cache table (`cache_key in self.cache` / indexing). -/
def alookup (k : String) : List (String × String) → Option String
  | [] => none
  | e :: rest => if e.1 = k then some e.2 else alookup k rest

/-- Configuration values read in `__init__` that the cache logic uses. -/
structure Config where
  enableCache : Bool
  cacheSize : Int
deriving DecidableEq

/-- Body of the loop in `_clean_cache` (lines 149-163): walk the first
`n` entries of the table; for each, if the backing file exists, read its
size, try to delete it, and on success subtract that size from the
counter; when the file is missing, or deletion raises (modelled by
`del tp = false`), the counter is left alone; the table entry is dropped
in every case. -/
def cleanCacheAux (del : String → Bool) :
    List (String × String) → Nat → FS → Int → List (String × String) × FS × Int
  | entries, 0, fs, used => (entries, fs, used)
  | [], _ + 1, fs, used => ([], fs, used)
  | e :: rest, n + 1, fs, used =>
      match fsLookup e.2 fs with
      | some sz =>
          if del e.2 then cleanCacheAux del rest n (fsErase e.2 fs) (used - sz)
          else cleanCacheAux del rest n fs used
      | none => cleanCacheAux del rest n fs used

/-- `_clean_cache` (lines 143-163): remove the first
`len(self.cache) // 2` entries of the table. -/
def cleanCache (del : String → Bool) (s : CacheState) (fs : FS) : CacheState × FS :=
  let r := cleanCacheAux del s.cache (s.cache.length / 2) fs s.used
  (⟨r.1, r.2.2⟩, r.2.1)

/-- Admission policy of `process_image` (lines 124-135): if caching is
enabled and `cache_size_used + file_size <= cache_size`, insert and bump
the counter; otherwise run one `_clean_cache` pass and retry the same
check exactly once; if it still fails, retain nothing. -/
def admitEntry (cfg : Config) (del : String → Bool) (key tp : String) (sz : Nat)
    (s : CacheState) (fs : FS) : CacheState × FS :=
  if cfg.enableCache then
    if s.used + (sz : Int) ≤ cfg.cacheSize then
      (⟨s.cache ++ [(key, tp)], s.used + (sz : Int)⟩, fs)
    else
      let c := cleanCache del s fs
      if c.1.used + (sz : Int) ≤ cfg.cacheSize then
        (⟨c.1.cache ++ [(key, tp)], c.1.used + (sz : Int)⟩, c.2)
      else c
  else (s, fs)

/-- Result of one `process_image` call: the returned path, the cache
state and filesystem afterwards, and whether the producer (decode,
transform, encode, write) actually ran. -/
structure PIResult where
  result : Option String
  state : CacheState
  fs : FS
  producerRan : Bool
deriving DecidableEq

/-- `process_image` (lines 74-141) in the successful case: on a cache
hit the stored artifact path is returned with no further work; on a miss
the transform runs, the artifact of `producedSize` bytes is written to
`tempPathOf path`, admission is attempted, and the artifact path is
returned whether or not it was retained. -/
def processImage (cfg : Config) (del : String → Bool) (path mtime : String)
    (producedSize : Nat) (s : CacheState) (fs : FS) : PIResult :=
  match alookup (keyOf path mtime) s.cache with
  | some tp => ⟨some tp, s, fs, false⟩
  | none =>
      let tp := tempPathOf path
      let fs1 := fsInsert tp producedSize fs
      let a := admitEntry cfg del (keyOf path mtime) tp producedSize s fs1
      ⟨some tp, a.1, a.2, true⟩

/-- States of the engine reachable from start (`self.cache = {}`,
`self.cache_size_used = 0`) by any sequence of image-processing and
eviction operations, over an arbitrary initial filesystem. -/
inductive Reach (cfg : Config) : CacheState → FS → Prop
  | init (fs : FS) : Reach cfg ⟨[], 0⟩ fs
  | proc (del : String → Bool) (path mtime : String) (sz : Nat) {s : CacheState} {fs : FS} :
      Reach cfg s fs →
      Reach cfg (processImage cfg del path mtime sz s fs).state
        (processImage cfg del path mtime sz s fs).fs
  | evict (del : String → Bool) {s : CacheState} {fs : FS} :
      Reach cfg s fs →
      Reach cfg (cleanCache del s fs).1 (cleanCache del s fs).2

/-- Sum of the on-disk sizes of the artifacts referenced by the cache
table (what the spec calls the sum of the sizes of the current entries). -/
def entriesTotal (fs : FS) (c : List (String × String)) : Int :=
  (c.map (fun e => ((fsLookup e.2 fs).getD 0 : Int))).sum

/-! ## Sequencer: next_image and refresh_images -/

/-- The sequencer state: `self.current_images` and `self.current_index`. -/
structure SeqState where
  images : List String
  index : Nat
deriving DecidableEq

/-- Result of a sequencer operation: the new state, plus the path handed
to `display_image` when a display happened. -/
structure SeqOut where
  state : SeqState
  displayed : Option String
deriving DecidableEq

/-- `next_image` (lines 246-253): on an empty list return immediately;
otherwise advance the index modulo the length and display that image. -/
def nextImage (s : SeqState) : SeqOut :=
  if s.images = [] then ⟨s, none⟩
  else
    let idx := (s.index + 1) % s.images.length
    ⟨⟨s.images, idx⟩, s.images[idx]?⟩

/-- `refresh_images` (lines 255-272): if the scan result equals the held
list, do nothing.  Otherwise replace the list (shuffling it when
`random_order` is set; the shuffle drawn by `random.shuffle` on this call
is passed in as `shuffle`), reset the index to 0 when it is out of
bounds, and redisplay the current image when the list is nonempty. -/
def refreshImages (randomOrder : Bool) (shuffle : List String → List String)
    (s : SeqState) (newImages : List String) : SeqOut :=
  if newImages = s.images then ⟨s, none⟩
  else
    let imgs := if randomOrder then shuffle newImages else newImages
    let idx := if s.index ≥ imgs.length then 0 else s.index
    ⟨⟨imgs, idx⟩, imgs[idx]?⟩

/-! ## Preloader pass

One pass of the loop body of `preload_images` (lines 179-187): for
`i in range(preload_count)` it computes
`(current_index + i + 1) % len(current_images)` against the list as
currently observed (the list and index are re-read on every iteration,
so they are modelled as functions of the step number), guards the access
with `next_index < len(current_images)`, and processes that image.  When
the list observed at a step is empty, Python raises ZeroDivisionError at
the modulo; the exception aborts the pass and is caught by the
enclosing try/except of the thread loop. -/

inductive StepResult where
  | err
  | skipped
  | processed (idx : Nat) (img : String)
deriving DecidableEq

/-- One iteration of the preload loop at step `i`, observing current
index `cur` and current list `imgs`. -/
def preloadStep (cur i : Nat) (imgs : List String) : StepResult :=
  if imgs.length = 0 then .err
  else
    let nidx := (cur + i + 1) % imgs.length
    if h : nidx < imgs.length then .processed nidx (imgs.get ⟨nidx, h⟩)
    else .skipped

/-- Run the remaining `n` steps of a pass starting at step `i`; the
boolean records whether the pass ran to completion (no exception). -/
def preloadPassFrom (cur : Nat → Nat) (imgsAt : Nat → List String) :
    Nat → Nat → List StepResult × Bool
  | _, 0 => ([], true)
  | i, n + 1 =>
      match preloadStep (cur i) i (imgsAt i) with
      | .err => ([.err], false)
      | r =>
          let rest := preloadPassFrom cur imgsAt (i + 1) n
          (r :: rest.1, rest.2)

/-- One full preloader pass of `count` steps. -/
def preloadPass (cur : Nat → Nat) (imgsAt : Nat → List String) (count : Nat) :
    List StepResult × Bool :=
  preloadPassFrom cur imgsAt 0 count

/-! ## Cover fit mode

The `cover` branch of `process_image` (lines 95-114), computed over ℚ.
For the concrete 4000x2000 to 1920x1080 scenario every intermediate
Python float value (2.0, 1080 * 2.0 = 2160.0) is exactly representable
and the single comparison 16/9 < 2 gets the same verdict, so the
rational model coincides with the float computation there. -/

/-- Python `int()` on a rational: truncation toward zero. -/
def pyInt (q : ℚ) : Int := q.num / (q.den : Int)

/-- Geometry produced by the cover branch: the resize dimensions, the
crop box handed to `img.crop`, and the output size of the crop. -/
structure CoverResult where
  resizedW : Int
  resizedH : Int
  boxLeft : Int
  boxTop : Int
  boxRight : Int
  boxBottom : Int
  outW : Int
  outH : Int
deriving DecidableEq

/-- Lines 95-114: pick the resize so the image covers the screen, then
center-crop to the screen size (`//` is Python floor division). -/
def coverTransform (w h sw sh : Nat) : CoverResult :=
  let imgRatio : ℚ := (w : ℚ) / (h : ℚ)
  let screenRatio : ℚ := (sw : ℚ) / (sh : ℚ)
  let nwnh : Int × Int :=
    if screenRatio < imgRatio then (pyInt ((sh : ℚ) * imgRatio), (sh : Int))
    else ((sw : Int), pyInt ((sw : ℚ) / imgRatio))
  let nw := nwnh.1
  let nh := nwnh.2
  let l := Int.fdiv (nw - (sw : Int)) 2
  let t := Int.fdiv (nh - (sh : Int)) 2
  ⟨nw, nh, l, t, l + (sw : Int), t + (sh : Int),
    (l + (sw : Int)) - l, (t + (sh : Int)) - t⟩

/-! ## Concurrent callers of process_image

Interleaving model for two threads (the foreground display loop and the
background preloader) running `process_image` for the same cache key.
Each thread first executes the membership test of line 79 (one atomic
read), then, on a miss, the whole produce-save-admitEntry block as a single
atomic action (the in-budget case, so admission inserts).  The code takes
no lock between the two, so any interleaving of these actions can occur;
a schedule lists which thread moves at each instant. -/

inductive Pc where
  | start
  | ready
  | done
deriving DecidableEq

structure ThreadSt where
  pc : Pc
  res : Option String
deriving DecidableEq

structure SysSt where
  cache : List (String × String)
  producerCount : Nat
  t1 : ThreadSt
  t2 : ThreadSt
deriving DecidableEq

/-- One atomic action of a thread running `process_image` for `key`. -/
def stepThread (key tp : String) (t : ThreadSt) (cache : List (String × String))
    (cnt : Nat) : ThreadSt × List (String × String) × Nat :=
  match t.pc with
  | .start =>
      match alookup key cache with
      | some v => (⟨.done, some v⟩, cache, cnt)
      | none => (⟨.ready, none⟩, cache, cnt)
  | .ready => (⟨.done, some tp⟩, cache ++ [(key, tp)], cnt + 1)
  | .done => (t, cache, cnt)

/-- Let the scheduled thread (`true` = thread 1) take one action. -/
def sysStep (key tp : String) (who : Bool) (s : SysSt) : SysSt :=
  match who with
  | true =>
      let r := stepThread key tp s.t1 s.cache s.producerCount
      ⟨r.2.1, r.2.2, r.1, s.t2⟩
  | false =>
      let r := stepThread key tp s.t2 s.cache s.producerCount
      ⟨r.2.1, r.2.2, s.t1, r.1⟩

/-- Run a whole schedule. -/
def runSched (key tp : String) (sched : List Bool) (s : SysSt) : SysSt :=
  sched.foldl (fun st w => sysStep key tp w st) s

/-- Both threads about to call `process_image`, cache empty. -/
def initSys : SysSt := ⟨[], 0, ⟨.start, none⟩, ⟨.start, none⟩⟩

/-- Number of threads that might still invoke the producer. -/
def credits (s : SysSt) : Nat :=
  (if s.t1.pc = Pc.done then 0 else 1) + (if s.t2.pc = Pc.done then 0 else 1)

/-- Invariant of the two-caller system: the producer count plus the
remaining credits never exceeds the thread count, the cache entry for the
key (if any) holds the artifact location, and so does any delivered
result. -/
def SysInv (key tp : String) (s : SysSt) : Prop :=
  s.producerCount + credits s ≤ 2 ∧
  (∀ v, alookup key s.cache = some v → v = tp) ∧
  (∀ v, s.t1.res = some v → v = tp) ∧
  (∀ v, s.t2.res = some v → v = tp)

/-! ## Lemmas about the filesystem model -/

theorem fsTotal_nil : fsTotal [] = 0 := rfl

theorem fsTotal_cons (e : String × Nat) (fs : FS) :
    fsTotal (e :: fs) = (e.2 : Int) + fsTotal fs := by
  simp [fsTotal]

theorem fsErase_of_forall_ne (p : String) :
    ∀ fs : FS, (∀ e ∈ fs, e.1 ≠ p) → fsErase p fs = fs := by
  intro fs
  induction fs with
  | nil => intro _; rfl
  | cons e rest ih =>
      intro h
      have he : e.1 ≠ p := h e (by simp)
      simp only [fsErase, if_neg he]
      rw [ih (fun x hx => h x (by simp [hx]))]

theorem mem_fsErase (p : String) :
    ∀ (fs : FS) (x : String × Nat), x ∈ fsErase p fs → x ∈ fs := by
  intro fs
  induction fs with
  | nil => intro x hx; exact absurd hx (by simp [fsErase])
  | cons e rest ih =>
      intro x hx
      by_cases hp : e.1 = p
      · simp only [fsErase, if_pos hp] at hx
        exact List.mem_cons_of_mem e (ih x hx)
      · simp only [fsErase, if_neg hp, List.mem_cons] at hx
        rcases hx with hx | hx
        · simp [hx]
        · exact List.mem_cons_of_mem e (ih x hx)

theorem fsWF_cons {e : String × Nat} {fs : FS} (h : fsWF (e :: fs)) :
    (∀ x ∈ fs, x.1 ≠ e.1) ∧ fsWF fs := by
  simp only [fsWF, List.map_cons, List.nodup_cons] at h
  refine ⟨fun x hx hcontra => h.1 ?_, h.2⟩
  exact hcontra ▸ List.mem_map_of_mem Prod.fst hx

theorem fsWF_erase (p : String) : ∀ fs : FS, fsWF fs → fsWF (fsErase p fs) := by
  intro fs
  induction fs with
  | nil => intro _; simp [fsErase, fsWF]
  | cons e rest ih =>
      intro h
      obtain ⟨hne, hrest⟩ := fsWF_cons h
      by_cases hp : e.1 = p
      · simp only [fsErase, if_pos hp]
        exact ih hrest
      · simp only [fsErase, if_neg hp, fsWF, List.map_cons, List.nodup_cons]
        refine ⟨fun hmem => ?_, ih hrest⟩
        obtain ⟨x, hx, hx1⟩ := List.mem_map.mp hmem
        exact hne x (mem_fsErase p rest x hx) hx1

theorem fsTotal_erase (p : String) :
    ∀ (fs : FS) (sz : Nat), fsWF fs → fsLookup p fs = some sz →
      fsTotal (fsErase p fs) = fsTotal fs - (sz : Int) := by
  intro fs
  induction fs with
  | nil => intro sz _ hl; exact absurd hl (by simp [fsLookup])
  | cons e rest ih =>
      intro sz hwf hl
      obtain ⟨hne, hrest⟩ := fsWF_cons hwf
      by_cases hp : e.1 = p
      · simp only [fsLookup, if_pos hp, Option.some.injEq] at hl
        simp only [fsErase, if_pos hp]
        rw [fsErase_of_forall_ne p rest (fun x hx => hp ▸ hne x hx), fsTotal_cons, hl]
        omega
      · simp only [fsLookup, if_neg hp] at hl
        simp only [fsErase, if_neg hp]
        rw [fsTotal_cons, fsTotal_cons, ih sz hrest hl]
        omega

/-! ## Lemmas about the eviction pass -/

theorem cleanCacheAux_used_le (del : String → Bool) :
    ∀ (entries : List (String × String)) (n : Nat) (fs : FS) (used : Int),
      (cleanCacheAux del entries n fs used).2.2 ≤ used := by
  intro entries
  induction entries with
  | nil => intro n fs used; cases n <;> simp [cleanCacheAux]
  | cons e rest ih =>
      intro n fs used
      cases n with
      | zero => simp [cleanCacheAux]
      | succ n =>
          cases h : fsLookup e.2 fs with
          | none => simpa only [cleanCacheAux, h] using ih n fs used
          | some sz =>
              by_cases hd : del e.2
              · simp only [cleanCacheAux, h, if_pos hd]
                refine le_trans (ih n (fsErase e.2 fs) (used - (sz : Int))) ?_
                omega
              · simpa only [cleanCacheAux, h, if_neg hd] using ih n fs used

theorem cleanCacheAux_cache (del : String → Bool) :
    ∀ (entries : List (String × String)) (n : Nat) (fs : FS) (used : Int),
      (cleanCacheAux del entries n fs used).1 = entries.drop n := by
  intro entries
  induction entries with
  | nil => intro n fs used; cases n <;> simp [cleanCacheAux]
  | cons e rest ih =>
      intro n fs used
      cases n with
      | zero => simp [cleanCacheAux]
      | succ n =>
          cases h : fsLookup e.2 fs with
          | none => simpa only [cleanCacheAux, h] using ih n fs used
          | some sz =>
              by_cases hd : del e.2
              · simpa only [cleanCacheAux, h, if_pos hd] using
                  ih n (fsErase e.2 fs) (used - (sz : Int))
              · simpa only [cleanCacheAux, h, if_neg hd] using ih n fs used

theorem cleanCacheAux_conserve (del : String → Bool) :
    ∀ (entries : List (String × String)) (n : Nat) (fs : FS) (used : Int), fsWF fs →
      (cleanCacheAux del entries n fs used).2.2
          - fsTotal (cleanCacheAux del entries n fs used).2.1
        = used - fsTotal fs := by
  intro entries
  induction entries with
  | nil => intro n fs used _; cases n <;> simp [cleanCacheAux]
  | cons e rest ih =>
      intro n fs used hwf
      cases n with
      | zero => simp [cleanCacheAux]
      | succ n =>
          cases h : fsLookup e.2 fs with
          | none => simpa only [cleanCacheAux, h] using ih n fs used hwf
          | some sz =>
              by_cases hd : del e.2
              · simp only [cleanCacheAux, h, if_pos hd]
                rw [ih n (fsErase e.2 fs) (used - (sz : Int)) (fsWF_erase e.2 fs hwf),
                  fsTotal_erase e.2 fs sz hwf h]
                omega
              · simpa only [cleanCacheAux, h, if_neg hd] using ih n fs used hwf

theorem cleanCache_used_le (del : String → Bool) (s : CacheState) (fs : FS) :
    (cleanCache del s fs).1.used ≤ s.used :=
  cleanCacheAux_used_le del s.cache (s.cache.length / 2) fs s.used

theorem cleanCache_cache (del : String → Bool) (s : CacheState) (fs : FS) :
    (cleanCache del s fs).1.cache = s.cache.drop (s.cache.length / 2) :=
  cleanCacheAux_cache del s.cache (s.cache.length / 2) fs s.used

/-! ## Lemmas about cache lookup and admission -/

theorem alookup_eq_none (k : String) :
    ∀ l : List (String × String), alookup k l = none ↔ ∀ e ∈ l, e.1 ≠ k := by
  intro l
  induction l with
  | nil => simp [alookup]
  | cons e rest ih =>
      by_cases h : e.1 = k
      · simp [alookup, h]
      · simp [alookup, h, ih]

theorem alookup_drop_none (k : String) (l : List (String × String)) (n : Nat)
    (h : alookup k l = none) : alookup k (l.drop n) = none := by
  rw [alookup_eq_none] at h ⊢
  exact fun e he => h e (List.mem_of_mem_drop he)

theorem admitEntry_used_le (cfg : Config) (del : String → Bool) (k tp : String) (sz : Nat)
    (s : CacheState) (fs : FS) (h : s.used ≤ cfg.cacheSize) :
    (admitEntry cfg del k tp sz s fs).1.used ≤ cfg.cacheSize := by
  by_cases hen : cfg.enableCache
  · by_cases h1 : s.used + (sz : Int) ≤ cfg.cacheSize
    · simpa only [admitEntry, if_pos hen, if_pos h1] using h1
    · by_cases h2 : (cleanCache del s fs).1.used + (sz : Int) ≤ cfg.cacheSize
      · simpa only [admitEntry, if_pos hen, if_neg h1, if_pos h2] using h2
      · simp only [admitEntry, if_pos hen, if_neg h1, if_neg h2]
        exact le_trans (cleanCache_used_le del s fs) h
  · simpa only [admitEntry, if_neg hen] using h

theorem processImage_used_le (cfg : Config) (del : String → Bool) (path mtime : String)
    (sz : Nat) (s : CacheState) (fs : FS) (h : s.used ≤ cfg.cacheSize) :
    (processImage cfg del path mtime sz s fs).state.used ≤ cfg.cacheSize := by
  cases hl : alookup (keyOf path mtime) s.cache with
  | some tp => simpa only [processImage, hl] using h
  | none =>
      simpa only [processImage, hl] using
        admitEntry_used_le cfg del (keyOf path mtime) (tempPathOf path) sz s
          (fsInsert (tempPathOf path) sz fs) h

/-- C1: over every sequence of image-processing (admission) and eviction
operations, the byte counter `cache_size_used` never exceeds the
configured maximum `cache_size`; an artifact is admitted only when
`current_bytes + size <= max_bytes`, otherwise one eviction pass runs and
the same check is retried exactly once, and when it still fails the
artifact path is returned to the caller but the key is not retained in
the cache. -/
theorem cache_budget_never_exceeded (cfg : Config) (hmax : 0 ≤ cfg.cacheSize) :
    (∀ (s : CacheState) (fs : FS), Reach cfg s fs → s.used ≤ cfg.cacheSize) ∧
    (∀ (del : String → Bool) (path mtime : String) (sz : Nat) (s : CacheState) (fs : FS),
      alookup (keyOf path mtime) s.cache = none →
      ¬ (s.used + (sz : Int) ≤ cfg.cacheSize) →
      ¬ ((cleanCache del s (fsInsert (tempPathOf path) sz fs)).1.used + (sz : Int)
          ≤ cfg.cacheSize) →
      (processImage cfg del path mtime sz s fs).result = some (tempPathOf path) ∧
      alookup (keyOf path mtime) (processImage cfg del path mtime sz s fs).state.cache
        = none) := by
  constructor
  · intro s fs hreach
    induction hreach with
    | init fs => simpa using hmax
    | proc del path mtime sz hr ih => exact processImage_used_le cfg del path mtime sz _ _ ih
    | evict del hr ih => exact le_trans (cleanCache_used_le del _ _) ih
  · intro del path mtime sz s fs h1 h2 h3
    by_cases hen : cfg.enableCache
    · simp only [processImage, h1, admitEntry, if_pos hen, if_neg h2, if_neg h3]
      refine ⟨trivial, ?_⟩
      rw [cleanCache_cache]
      exact alookup_drop_none _ _ _ h1
    · simp only [processImage, h1, admitEntry, if_neg hen]
      exact ⟨trivial, trivial⟩

/-- Witness for C1: a concrete over-budget admission (10 bytes against a
5-byte budget) returns the artifact path without retaining the key. -/
theorem cache_budget_never_exceeded_witness :
    (processImage ⟨true, 5⟩ (fun _ => true) "a.jpg" "1.0" 10 ⟨[], 0⟩ []).result
        = some (tempPathOf "a.jpg") ∧
    alookup (keyOf "a.jpg" "1.0")
        (processImage ⟨true, 5⟩ (fun _ => true) "a.jpg" "1.0" 10 ⟨[], 0⟩ []).state.cache
      = none :=
  (cache_budget_never_exceeded ⟨true, 5⟩ (by decide)).2 (fun _ => true) "a.jpg" "1.0" 10
    ⟨[], 0⟩ [] (by decide) (by decide) (by decide)

/-- C2 (amended): every entry walked by an eviction pass is dropped from
the table (the pass keeps exactly the entries after the first half), but
the byte counter is decremented only by the bytes actually freed on
disk: the difference between the counter and the total on-disk bytes is
preserved by the pass, so a removal whose backing file is missing or
undeletable leaves the counter untouched. -/
theorem evict_pass_accounting (del : String → Bool) (s : CacheState) (fs : FS)
    (hwf : fsWF fs) :
    (cleanCache del s fs).1.used - fsTotal (cleanCache del s fs).2
        = s.used - fsTotal fs ∧
    (cleanCache del s fs).1.cache = s.cache.drop (s.cache.length / 2) :=
  ⟨cleanCacheAux_conserve del s.cache (s.cache.length / 2) fs s.used hwf,
   cleanCache_cache del s fs⟩

/-- Witness for C2: a pass over two 100-byte entries with working
deletion frees 100 bytes on disk and lowers the counter by the same 100
bytes. -/
theorem evict_pass_accounting_witness :
    (cleanCache (fun _ => true) ⟨[("k1", "T1"), ("k2", "T2")], 200⟩
          [("T1", 100), ("T2", 100)]).1.used
        - fsTotal (cleanCache (fun _ => true) ⟨[("k1", "T1"), ("k2", "T2")], 200⟩
          [("T1", 100), ("T2", 100)]).2
      = (200 : Int) - fsTotal [("T1", 100), ("T2", 100)] :=
  (evict_pass_accounting (fun _ => true) ⟨[("k1", "T1"), ("k2", "T2")], 200⟩
    [("T1", 100), ("T2", 100)] (by decide)).1

/-- Counterexample to C2 as stated: when deleting the backing file of the
removed entry fails (the file "T1" of entry "a.jpg_1.0" is present but
undeletable), the entry is dropped from the table yet its 100 bytes are
NOT subtracted: the counter stays at 200, which differs from the 100
bytes of the one entry remaining in the cache. -/
theorem evict_missing_decrement_cex :
    (cleanCache (fun _ => false) ⟨[("a.jpg_1.0", "T1"), ("b.jpg_1.0", "T2")], 200⟩
        [("T1", 100), ("T2", 100)]).1 = ⟨[("b.jpg_1.0", "T2")], 200⟩ ∧
    (cleanCache (fun _ => false) ⟨[("a.jpg_1.0", "T1"), ("b.jpg_1.0", "T2")], 200⟩
          [("T1", 100), ("T2", 100)]).1.used
      ≠ entriesTotal
          (cleanCache (fun _ => false) ⟨[("a.jpg_1.0", "T1"), ("b.jpg_1.0", "T2")], 200⟩
            [("T1", 100), ("T2", 100)]).2
          (cleanCache (fun _ => false) ⟨[("a.jpg_1.0", "T1"), ("b.jpg_1.0", "T2")], 200⟩
            [("T1", 100), ("T2", 100)]).1.cache := by
  decide

/-- C3: when the cache key already has a live entry, `process_image`
returns the stored artifact location with the cache state and the
filesystem untouched, and the producer does not run (no decode, resize,
encode, or write). -/
theorem cache_hit_no_producer (cfg : Config) (del : String → Bool) (path mtime : String)
    (sz : Nat) (s : CacheState) (fs : FS) (t : String)
    (h : alookup (keyOf path mtime) s.cache = some t) :
    processImage cfg del path mtime sz s fs = ⟨some t, s, fs, false⟩ := by
  simp [processImage, h]

/-- Witness for C3: a concrete hit on key "a.jpg_1.0" returns the stored
artifact "T" and changes nothing. -/
theorem cache_hit_no_producer_witness :
    processImage ⟨true, 1000⟩ (fun _ => true) "a.jpg" "1.0" 10 ⟨[("a.jpg_1.0", "T")], 50⟩ []
      = ⟨some "T", ⟨[("a.jpg_1.0", "T")], 50⟩, [], false⟩ :=
  cache_hit_no_producer ⟨true, 1000⟩ (fun _ => true) "a.jpg" "1.0" 10
    ⟨[("a.jpg_1.0", "T")], 50⟩ [] "T" (by decide)

theorem alookup_append_single_none (k1 k2 tp : String) (hk : k1 ≠ k2) :
    ∀ l : List (String × String), alookup k2 l = none → alookup k2 (l ++ [(k1, tp)]) = none := by
  intro l
  induction l with
  | nil => intro _; simpa [alookup] using hk
  | cons e rest ih =>
      intro h
      by_cases he : e.1 = k2
      · simp [alookup, he] at h
      · simp only [alookup, if_neg he] at h
        simpa only [List.cons_append, alookup, if_neg he] using ih h

theorem admitEntry_lookup_none (cfg : Config) (del : String → Bool) (k1 tp : String)
    (sz : Nat) (s : CacheState) (fs : FS) (k2 : String)
    (h : alookup k2 s.cache = none) (hk : k1 ≠ k2) :
    alookup k2 (admitEntry cfg del k1 tp sz s fs).1.cache = none := by
  have hdrop : alookup k2 (cleanCache del s fs).1.cache = none := by
    rw [cleanCache_cache]
    exact alookup_drop_none k2 s.cache _ h
  by_cases hen : cfg.enableCache
  · by_cases h1 : s.used + (sz : Int) ≤ cfg.cacheSize
    · simp only [admitEntry, if_pos hen, if_pos h1]
      exact alookup_append_single_none k1 k2 tp hk s.cache h
    · by_cases h2 : (cleanCache del s fs).1.used + (sz : Int) ≤ cfg.cacheSize
      · simp only [admitEntry, if_pos hen, if_neg h1, if_pos h2]
        exact alookup_append_single_none k1 k2 tp hk _ hdrop
      · simpa only [admitEntry, if_pos hen, if_neg h1, if_neg h2] using hdrop
  · simpa only [admitEntry, if_neg hen] using h

theorem processImage_miss (cfg : Config) (del : String → Bool) (path mtime : String)
    (sz : Nat) (s : CacheState) (fs : FS)
    (h : alookup (keyOf path mtime) s.cache = none) :
    (processImage cfg del path mtime sz s fs).result = some (tempPathOf path) ∧
    (processImage cfg del path mtime sz s fs).producerRan = true := by
  simp [processImage, h]

/-- C4 (amended): the artifact location is derived from the source path
alone, so the same path observed with two different mtimes yields two
distinct cache keys whose artifacts share a single location: starting
from an empty cache, processing (path, mtime1) and then (path, mtime2)
runs the producer both times and both calls return the very same
`tempPathOf path`, the second write landing on top of the first. -/
theorem artifact_location_ignores_mtime (cfg : Config) (del : String → Bool)
    (p m1 m2 : String) (sz1 sz2 : Nat) (fs : FS)
    (hk : keyOf p m1 ≠ keyOf p m2) :
    (processImage cfg del p m1 sz1 ⟨[], 0⟩ fs).result = some (tempPathOf p) ∧
    (processImage cfg del p m2 sz2
        (processImage cfg del p m1 sz1 ⟨[], 0⟩ fs).state
        (processImage cfg del p m1 sz1 ⟨[], 0⟩ fs).fs).result = some (tempPathOf p) ∧
    (processImage cfg del p m1 sz1 ⟨[], 0⟩ fs).producerRan = true ∧
    (processImage cfg del p m2 sz2
        (processImage cfg del p m1 sz1 ⟨[], 0⟩ fs).state
        (processImage cfg del p m1 sz1 ⟨[], 0⟩ fs).fs).producerRan = true := by
  have hmiss1 : alookup (keyOf p m1) (⟨[], 0⟩ : CacheState).cache = none := rfl
  have h1 := processImage_miss cfg del p m1 sz1 ⟨[], 0⟩ fs hmiss1
  have hstate :
      (processImage cfg del p m1 sz1 ⟨[], 0⟩ fs).state
        = (admitEntry cfg del (keyOf p m1) (tempPathOf p) sz1 ⟨[], 0⟩
            (fsInsert (tempPathOf p) sz1 fs)).1 := by
    simp only [processImage, hmiss1]
  have hmiss2 :
      alookup (keyOf p m2) (processImage cfg del p m1 sz1 ⟨[], 0⟩ fs).state.cache
        = none := by
    rw [hstate]
    exact admitEntry_lookup_none cfg del (keyOf p m1) (tempPathOf p) sz1 ⟨[], 0⟩
      (fsInsert (tempPathOf p) sz1 fs) (keyOf p m2) rfl hk
  have h2 := processImage_miss cfg del p m2 sz2
    (processImage cfg del p m1 sz1 ⟨[], 0⟩ fs).state
    (processImage cfg del p m1 sz1 ⟨[], 0⟩ fs).fs hmiss2
  exact ⟨h1.1, h2.1, h1.2, h2.2⟩

/-- Witness for C4: concrete path "b.jpg" seen with mtimes "5.0" and
"6.0". -/
theorem artifact_location_ignores_mtime_witness :
    (processImage ⟨true, 1000⟩ (fun _ => true) "b.jpg" "5.0" 10 ⟨[], 0⟩ []).result
        = some (tempPathOf "b.jpg") ∧
    (processImage ⟨true, 1000⟩ (fun _ => true) "b.jpg" "6.0" 10
        (processImage ⟨true, 1000⟩ (fun _ => true) "b.jpg" "5.0" 10 ⟨[], 0⟩ []).state
        (processImage ⟨true, 1000⟩ (fun _ => true) "b.jpg" "5.0" 10 ⟨[], 0⟩ []).fs).result
      = some (tempPathOf "b.jpg") ∧
    (processImage ⟨true, 1000⟩ (fun _ => true) "b.jpg" "5.0" 10 ⟨[], 0⟩ []).producerRan
      = true ∧
    (processImage ⟨true, 1000⟩ (fun _ => true) "b.jpg" "6.0" 10
        (processImage ⟨true, 1000⟩ (fun _ => true) "b.jpg" "5.0" 10 ⟨[], 0⟩ []).state
        (processImage ⟨true, 1000⟩ (fun _ => true) "b.jpg" "5.0" 10 ⟨[], 0⟩ []).fs).producerRan
      = true :=
  artifact_location_ignores_mtime ⟨true, 1000⟩ (fun _ => true) "b.jpg" "5.0" "6.0" 10 10 []
    (by decide)

/-- Counterexample to C4 as stated: the two observations of "a.jpg" with
mtimes "1.0" and "2.0" form two distinct cache keys, yet the artifact
locations the two (both producer-running) calls return are identical,
not distinct. -/
theorem artifact_location_collision_cex :
    keyOf "a.jpg" "1.0" ≠ keyOf "a.jpg" "2.0" ∧
    (processImage ⟨true, 1000000⟩ (fun _ => true) "a.jpg" "2.0" 10
        (processImage ⟨true, 1000000⟩ (fun _ => true) "a.jpg" "1.0" 10 ⟨[], 0⟩ []).state
        (processImage ⟨true, 1000000⟩ (fun _ => true) "a.jpg" "1.0" 10 ⟨[], 0⟩ []).fs).result
      = (processImage ⟨true, 1000000⟩ (fun _ => true) "a.jpg" "1.0" 10 ⟨[], 0⟩ []).result ∧
    (processImage ⟨true, 1000000⟩ (fun _ => true) "a.jpg" "2.0" 10
        (processImage ⟨true, 1000000⟩ (fun _ => true) "a.jpg" "1.0" 10 ⟨[], 0⟩ []).state
        (processImage ⟨true, 1000000⟩ (fun _ => true) "a.jpg" "1.0" 10 ⟨[], 0⟩ []).fs).producerRan
      = true := by
  decide


/-- C5: when the scan result differs from the held list, refresh replaces
the list and keeps the index when it is still strictly below the new
length, resetting it to 0 otherwise; in particular [A, B, C] at index 1
refreshed to [A, C] keeps index 1, which now points at C. -/
theorem refresh_index_rule (ro : Bool) (sh : List String → List String)
    (s : SeqState) (newImages : List String)
    (hne : newImages ≠ s.images) (hlen : ∀ l, (sh l).length = l.length) :
    ((refreshImages ro sh s newImages).state.index
        = if s.index < newImages.length then s.index else 0) ∧
    (ro = false → (refreshImages ro sh s newImages).state.images = newImages) ∧
    refreshImages false id ⟨["A", "B", "C"], 1⟩ ["A", "C"]
      = ⟨⟨["A", "C"], 1⟩, some "C"⟩ := by
  refine ⟨?_, ?_, by decide⟩
  · have himgs : (if ro then sh newImages else newImages).length = newImages.length := by
      cases ro <;> simp [hlen]
    simp only [refreshImages, if_neg hne, himgs]
    by_cases hlt : s.index < newImages.length
    · rw [if_neg (by omega), if_pos hlt]
    · rw [if_pos (by omega), if_neg hlt]
  · intro hro
    simp [refreshImages, if_neg hne, hro]

/-- Witness for C5: the concrete [A, B, C] at index 1 refreshed to
[A, C]. -/
theorem refresh_index_rule_witness :
    refreshImages false id ⟨["A", "B", "C"], 1⟩ ["A", "C"]
      = ⟨⟨["A", "C"], 1⟩, some "C"⟩ :=
  (refresh_index_rule false id ⟨["A", "B", "C"], 1⟩ ["A", "C"] (by decide)
    (fun _ => rfl)).2.2

/-- C6 (amended): with random order disabled, refresh is idempotent: a
second call with the same scan result leaves the held list and index
unchanged and displays nothing.  (With random order enabled the second
call may reshuffle and redisplay, because the unshuffled scan result is
compared against the shuffled held list.) -/
theorem refresh_idempotent_no_shuffle (sh1 sh2 : List String → List String)
    (s : SeqState) (newImages : List String) :
    refreshImages false sh2 (refreshImages false sh1 s newImages).state newImages
      = ⟨(refreshImages false sh1 s newImages).state, none⟩ := by
  by_cases h : newImages = s.images
  · simp [refreshImages, h]
  · simp only [refreshImages, if_neg h, Bool.false_eq_true, if_false]
    simp [refreshImages]

/-- Counterexample to C6 as stated: with random_order enabled, a second
refresh with the identical scan result [A, B] is not a no-op: the first
call shuffles the held list to [B, A], so the second call sees a changed
list, reshuffles (here drawing the identity permutation), and redisplays
-- the held order changes and a display happens. -/
theorem refresh_reshuffle_cex :
    (refreshImages true id
        (refreshImages true List.reverse ⟨[], 0⟩ ["A", "B"]).state ["A", "B"]).state
      ≠ (refreshImages true List.reverse ⟨[], 0⟩ ["A", "B"]).state ∧
    (refreshImages true id
        (refreshImages true List.reverse ⟨[], 0⟩ ["A", "B"]).state ["A", "B"]).displayed
      ≠ none := by
  decide

theorem preloadStep_of_ne_nil (cur i : Nat) (imgs : List String) (h : imgs ≠ []) :
    ∃ img, preloadStep cur i imgs = .processed ((cur + i + 1) % imgs.length) img ∧
      (cur + i + 1) % imgs.length < imgs.length := by
  have hlen : imgs.length ≠ 0 := fun hc => h (List.length_eq_zero.mp hc)
  have hlt : (cur + i + 1) % imgs.length < imgs.length :=
    Nat.mod_lt _ (Nat.pos_of_ne_zero hlen)
  refine ⟨imgs.get ⟨(cur + i + 1) % imgs.length, hlt⟩, ?_, hlt⟩
  simp only [preloadStep, if_neg hlen, dif_pos hlt]

theorem preloadPassFrom_safe (cur : Nat → Nat) (imgsAt : Nat → List String) :
    ∀ (n i : Nat), (∀ j, j < n → imgsAt (i + j) ≠ []) →
      (preloadPassFrom cur imgsAt i n).2 = true ∧
      (preloadPassFrom cur imgsAt i n).1.length = n ∧
      ∀ j, j < n → ∃ img,
        (preloadPassFrom cur imgsAt i n).1.getD j .err
            = .processed ((cur (i + j) + (i + j) + 1) % (imgsAt (i + j)).length) img ∧
        (cur (i + j) + (i + j) + 1) % (imgsAt (i + j)).length
          < (imgsAt (i + j)).length := by
  intro n
  induction n with
  | zero =>
      intro i _
      exact ⟨rfl, rfl, fun j hj => absurd hj (Nat.not_lt_zero j)⟩
  | succ n ih =>
      intro i h
      have h0 : imgsAt i ≠ [] := by simpa using h 0 (Nat.succ_pos n)
      obtain ⟨img, hstep, hlt⟩ := preloadStep_of_ne_nil (cur i) i (imgsAt i) h0
      have hrest := ih (i + 1) (fun j hj => by
        have := h (j + 1) (Nat.succ_lt_succ hj)
        simpa [Nat.add_assoc, Nat.add_comm 1 j] using this)
      refine ⟨?_, ?_, ?_⟩
      · simp only [preloadPassFrom, hstep]
        exact hrest.1
      · simp only [preloadPassFrom, hstep, List.length_cons]
        rw [hrest.2.1]
      · intro j hj
        cases j with
        | zero =>
            refine ⟨img, ?_, by simpa using hlt⟩
            simp only [preloadPassFrom, hstep, List.getD_cons_zero, Nat.add_zero]
        | succ j =>
            have hj2 : j < n := Nat.lt_of_succ_lt_succ hj
            obtain ⟨img2, heq, hlt2⟩ := hrest.2.2 j hj2
            refine ⟨img2, ?_, ?_⟩
            · simp only [preloadPassFrom, hstep, List.getD_cons_succ]
              rw [heq]
              have harith : i + 1 + j = i + (j + 1) := by omega
              rw [harith]
            · have harith : i + 1 + j = i + (j + 1) := by omega
              rw [harith] at hlt2
              exact hlt2

/-- C7 (amended): whenever the image list observed at a step of a
preloader pass is nonempty, the candidate index is computed modulo the
length of the list as read at that very step and is strictly in range,
so the whole pass completes with no out-of-range access even when the
list shrinks between steps or is shorter than the preload window; when
the observed list is empty, the modulo raises ZeroDivisionError, which
aborts the pass and is caught by the surrounding thread loop. -/
theorem preload_steps_safe (cur : Nat → Nat) (imgsAt : Nat → List String) (count : Nat)
    (h : ∀ j, j < count → imgsAt j ≠ []) :
    (preloadPass cur imgsAt count).2 = true ∧
    (preloadPass cur imgsAt count).1.length = count ∧
    ∀ j, j < count → ∃ img,
      (preloadPass cur imgsAt count).1.getD j .err
          = .processed ((cur j + j + 1) % (imgsAt j).length) img ∧
      (cur j + j + 1) % (imgsAt j).length < (imgsAt j).length := by
  have := preloadPassFrom_safe cur imgsAt count 0 (fun j hj => by simpa using h j hj)
  refine ⟨this.1, this.2.1, fun j hj => ?_⟩
  have hj2 := this.2.2 j hj
  simpa using hj2

/-- Witness for C7: a two-step pass over a list that shrinks from three
entries to one mid-pass completes with both accesses in range. -/
theorem preload_steps_safe_witness :
    (preloadPass (fun _ => 1) (fun i => if i = 0 then ["a", "b", "c"] else ["z"]) 2).2
      = true ∧
    (preloadPass (fun _ => 1) (fun i => if i = 0 then ["a", "b", "c"] else ["z"]) 2).1.length
      = 2 :=
  ⟨(preload_steps_safe (fun _ => 1) (fun i => if i = 0 then ["a", "b", "c"] else ["z"]) 2
      (by decide)).1,
   (preload_steps_safe (fun _ => 1) (fun i => if i = 0 then ["a", "b", "c"] else ["z"]) 2
      (by decide)).2.1⟩

/-- Counterexample to C7 as stated: with an empty image list the very
first step does not compute any modulo index: it raises (ZeroDivisionError
in Python, `StepResult.err` here) and the pass aborts instead of running
its three steps. -/
theorem preload_empty_list_cex :
    preloadPass (fun _ => 0) (fun _ => ([] : List String)) 3 = ([StepResult.err], false) := by
  decide

/-- C8: with fit policy cover, a 4000x2000 source at a 1920x1080 target
is resized to 2160x1080 (aspect preserved, fully covering the target) and
center-cropped with the box (120, 0, 2040, 1080): the output is exactly
1920x1080, the crop box stays inside the resized bitmap (no letterboxing)
and the margins removed left and right (120 each) and above and below
(0 each) are equal. -/
theorem cover_scenario_exact :
    coverTransform 4000 2000 1920 1080 = ⟨2160, 1080, 120, 0, 2040, 1080, 1920, 1080⟩ ∧
    (coverTransform 4000 2000 1920 1080).outW = 1920 ∧
    (coverTransform 4000 2000 1920 1080).outH = 1080 ∧
    (coverTransform 4000 2000 1920 1080).resizedW
        - (coverTransform 4000 2000 1920 1080).boxRight
      = (coverTransform 4000 2000 1920 1080).boxLeft ∧
    (coverTransform 4000 2000 1920 1080).resizedH
        - (coverTransform 4000 2000 1920 1080).boxBottom
      = (coverTransform 4000 2000 1920 1080).boxTop ∧
    0 ≤ (coverTransform 4000 2000 1920 1080).boxLeft ∧
    (coverTransform 4000 2000 1920 1080).boxRight
      ≤ (coverTransform 4000 2000 1920 1080).resizedW ∧
    0 ≤ (coverTransform 4000 2000 1920 1080).boxTop ∧
    (coverTransform 4000 2000 1920 1080).boxBottom
      ≤ (coverTransform 4000 2000 1920 1080).resizedH ∧
    1920 ≤ (coverTransform 4000 2000 1920 1080).resizedW ∧
    1080 ≤ (coverTransform 4000 2000 1920 1080).resizedH := by
  have heq : coverTransform 4000 2000 1920 1080
      = ⟨2160, 1080, 120, 0, 2040, 1080, 1920, 1080⟩ := by
    have hlt : ((1920 : Nat) : ℚ) / ((1080 : Nat) : ℚ)
        < ((4000 : Nat) : ℚ) / ((2000 : Nat) : ℚ) := by norm_num
    have hmul : ((1080 : Nat) : ℚ) * (((4000 : Nat) : ℚ) / ((2000 : Nat) : ℚ))
        = (2160 : ℚ) := by norm_num
    simp only [coverTransform, hlt, if_true, hmul]
    norm_num [pyInt]
    decide
  rw [heq]
  refine ⟨rfl, rfl, rfl, by decide, by decide, by decide, by decide, by decide, by decide,
    by decide, by decide⟩

/-- C10: with an empty image list, `next_image` is a total no-op: the
sequencer state is returned unchanged and nothing is displayed (the
index is not advanced modulo zero and nothing is raised). -/
theorem next_image_empty_noop (s : SeqState) (h : s.images = []) :
    nextImage s = ⟨s, none⟩ := by
  simp [nextImage, h]

/-- Witness for C10: empty list with a stale index 5. -/
theorem next_image_empty_noop_witness :
    nextImage ⟨[], 5⟩ = ⟨⟨[], 5⟩, none⟩ :=
  next_image_empty_noop ⟨[], 5⟩ rfl


theorem alookup_append_key (k tp : String) :
    ∀ c : List (String × String), (∀ v, alookup k c = some v → v = tp) →
      ∀ v, alookup k (c ++ [(k, tp)]) = some v → v = tp := by
  intro c
  induction c with
  | nil =>
      intro _ v hv
      simpa [alookup] using hv.symm
  | cons e rest ih =>
      intro h v hv
      by_cases he : e.1 = k
      · simp only [List.cons_append, alookup, if_pos he, Option.some.injEq] at hv
        exact h v (by simp [alookup, he, hv])
      · simp only [List.cons_append, alookup, if_neg he] at hv
        exact ih (fun w hw => h w (by simp [alookup, he, hw])) v hv

theorem stepThread_ok (key tp : String) (t : ThreadSt) (cache : List (String × String))
    (cnt : Nat)
    (hcache : ∀ v, alookup key cache = some v → v = tp)
    (hres : ∀ v, t.res = some v → v = tp) :
    (stepThread key tp t cache cnt).2.2
        + (if (stepThread key tp t cache cnt).1.pc = Pc.done then 0 else 1)
      ≤ cnt + (if t.pc = Pc.done then 0 else 1) ∧
    (∀ v, alookup key (stepThread key tp t cache cnt).2.1 = some v → v = tp) ∧
    (∀ v, (stepThread key tp t cache cnt).1.res = some v → v = tp) := by
  cases hpc : t.pc with
  | start =>
      cases hl : alookup key cache with
      | some v =>
          simp only [stepThread, hpc, hl]
          refine ⟨by simp, ?_, ?_⟩
          all_goals
            intro w hw
            simp only [Option.some.injEq] at hw
            exact hw ▸ hcache v hl
      | none =>
          simp only [stepThread, hpc, hl]
          refine ⟨by simp, ?_, ?_⟩
          all_goals
            intro w hw
            exact Option.noConfusion hw
  | ready =>
      simp only [stepThread, hpc]
      refine ⟨by simp, alookup_append_key key tp cache hcache, ?_⟩
      intro w hw
      simp only [Option.some.injEq] at hw
      exact hw.symm
  | done =>
      simp only [stepThread, hpc]
      exact ⟨le_refl _, hcache, hres⟩

theorem sysStep_inv (key tp : String) (who : Bool) (s : SysSt) (h : SysInv key tp s) :
    SysInv key tp (sysStep key tp who s) := by
  obtain ⟨hcnt, hcache, hres1, hres2⟩ := h
  simp only [credits] at hcnt
  cases who
  · have hstep := stepThread_ok key tp s.t2 s.cache s.producerCount hcache hres2
    refine ⟨?_, hstep.2.1, hres1, hstep.2.2⟩
    simp only [sysStep, credits]
    have h1 := hstep.1
    omega
  · have hstep := stepThread_ok key tp s.t1 s.cache s.producerCount hcache hres1
    refine ⟨?_, hstep.2.1, hstep.2.2, hres2⟩
    simp only [sysStep, credits]
    have h1 := hstep.1
    omega

theorem runSched_inv (key tp : String) :
    ∀ (sched : List Bool) (s : SysSt), SysInv key tp s →
      SysInv key tp (runSched key tp sched s) := by
  intro sched
  induction sched with
  | nil => intro s h; exact h
  | cons w rest ih =>
      intro s h
      exact ih (sysStep key tp w s) (sysStep_inv key tp w s h)

/-- C9 (amended): `process_image` takes no lock, so under two concurrent
callers for the same key the producer may run once per caller -- at most
twice in total, not at most once -- but every result either caller
receives is the same artifact location `tp` (which depends only on the
source path). -/
theorem no_per_key_lock (key tp : String) (sched : List Bool) :
    (runSched key tp sched initSys).producerCount ≤ 2 ∧
    (∀ v, (runSched key tp sched initSys).t1.res = some v → v = tp) ∧
    (∀ v, (runSched key tp sched initSys).t2.res = some v → v = tp) := by
  have hinit : SysInv key tp initSys := by
    refine ⟨by simp [initSys, credits], ?_, ?_, ?_⟩
    · intro v hv
      exact absurd hv (by simp [initSys, alookup])
    · intro v hv
      exact absurd hv (by simp [initSys])
    · intro v hv
      exact absurd hv (by simp [initSys])
  have h := runSched_inv key tp sched initSys hinit
  exact ⟨by have := h.1; omega, h.2.2.1, h.2.2.2⟩

/-- Witness for C9: under the schedule where both threads pass the
membership test before either produces, thread 1 receives the artifact
location "T". -/
theorem no_per_key_lock_witness :
    (runSched "k" "T" [false, true, false, true] initSys).producerCount ≤ 2 ∧ "T" = "T" :=
  ⟨(no_per_key_lock "k" "T" [false, true, false, true]).1,
   (no_per_key_lock "k" "T" [false, true, false, true]).2.1 "T" (by decide)⟩

/-- Counterexample to C9 as stated: the interleaving in which both
threads execute the line-79 membership test before either inserts makes
the producer run twice for the single key "k" -- more than the at most
one invocation the claim allows. -/
theorem duplicate_producer_cex :
    (runSched "k" "T" [true, false, true, false] initSys).producerCount = 2 ∧
    ¬ (runSched "k" "T" [true, false, true, false] initSys).producerCount ≤ 1 := by
  decide

end RpiSlideshow
